import Mathlib

/-!
Verification of the leave-policy allocation engine of the `alliswell_payroll`
repository (files `hospital.py` and `superclinic.py`).

The engine works on one employee's month of attendance rows
(table `monthly_attendance` / `monthly_attendance_sc`).  A month is modelled
as a `List DayRec`, in the order the SQL queries deliver it (`ORDER BY day`);
the schema constraint `UNIQUE(employee_code, month_year, day)` means the day
numbers of one employee-month are pairwise distinct, so the fetched list has
strictly increasing day numbers (`DaysSorted` below).  The SQL
`UPDATE ... WHERE id = ?` statements of the source are modelled as updates of
the corresponding list entries, keyed by the (unique) day number that the
source carries around next to each record id.

Status codes are the five strings the source writes into
`status_calculated`: 'P', 'AB', 'WO', 'CL', 'Absent'; `status = none` models
the NULL the extraction step leaves behind.
-/

/-- The closed set of values the engine writes into `status_calculated`. -/
inductive Status where
  | P
  | AB
  | WO
  | CL
  | Absent
  deriving DecidableEq, Repr

/-- One row of the monthly attendance table, for one employee and month:
`day`, `in_time`, `out_time`, `status_calculated`, `leave_type_used`.
`in_time`/`out_time` are TEXT columns: `none` models SQL NULL, `some s` a
stored string (possibly empty). -/
structure DayRec where
  day : Nat
  inTime : Option String
  outTime : Option String
  status : Option Status
  leaveType : Option String
  deriving DecidableEq, Repr

/-- Projection to the pair `(day, status_calculated)` fetched by the
segmentation and allocation queries. -/
def dsOf (r : DayRec) : Nat × Option Status :=
  (r.day, r.status)

/-- Projection to everything except `leave_type_used` (a column no pass ever
reads back). -/
def coreOf (r : DayRec) : Nat × Option String × Option String × Option Status :=
  (r.day, r.inTime, r.outTime, r.status)

/-- Projection to the raw data the engine never writes: day and times. -/
def rawOf (r : DayRec) : Nat × Option String × Option String :=
  (r.day, r.inTime, r.outTime)

/-- The per-field presence test of the classification pass:
`in_time is not None and in_time != ""` (hospital.py line 374,
superclinic.py lines 605, 742). -/
def timeGiven : Option String → Bool
  | none => false
  | some s => s != ""

/-- A record counts as present for the classifier when either time is given. -/
def presentRec (r : DayRec) : Bool :=
  timeGiven r.inTime || timeGiven r.outTime

/-- Classification of one record: 'P' when IN or OUT time exists, else 'AB'
(hospital.py lines 372-378, superclinic.py lines 601-609 and 738-746). -/
def classifyDay (r : DayRec) : DayRec :=
  { r with status := some (if presentRec r then Status.P else Status.AB) }

/-- Step "Calculate initial status_calculated ('P' or 'AB')": one update per
record, independent of order. -/
def classify (rs : List DayRec) : List DayRec :=
  rs.map classifyDay

/-- The `status_calculated = 'AB'` test used by the segmentation and allocation
queries. -/
def isAB (r : DayRec) : Bool :=
  r.status == some Status.AB

/-- The consecutive-'AB'-sequence scan of hospital.py lines 396-417 and
superclinic.py lines 779-800, over the day-ordered `(day, status)` tuples the
query fetched.  `cur` is the current sequence, most recent day first (the
source appends at the end; we cons and reverse on flush).  A day extends the
current sequence only when its status is 'AB' and its day number is the
successor of the last collected day; otherwise the sequence is flushed. -/
def runsGo (cur : List Nat) : List (Nat × Option Status) → List (List Nat)
  | [] => if cur.isEmpty then [] else [cur.reverse]
  | p :: ps =>
    if p.2 = some Status.AB then
      match cur with
      | [] => runsGo [p.1] ps
      | d :: _ =>
        if p.1 = d + 1 then runsGo (p.1 :: cur) ps
        else cur.reverse :: runsGo [p.1] ps
    else
      if cur.isEmpty then runsGo [] ps
      else cur.reverse :: runsGo [] ps

/-- All maximal consecutive-'AB' sequences of a month, each as its list of
day numbers in ascending order. -/
def absRuns (rs : List DayRec) : List (List Nat) :=
  runsGo [] (rs.map dsOf)

/-- The days marked 'Absent' by the long-sequence pass: for each sequence of
length > 3, the days at positions 4.. (hospital.py lines 422-428,
superclinic.py lines 805-811).  For a sequence of length ≤ 3, `drop 3` is
empty, matching the `if len(sequence) > 3` guard. -/
def longRunAbsentDays (runs : List (List Nat)) : List Nat :=
  (runs.map (fun sq => sq.drop 3)).flatten

/-- Batch `UPDATE ... SET status_calculated = st WHERE id = ?` over the
records collected for the given days (record ids are in bijection with day
numbers within one employee-month). -/
def setStatusForDays (days : List Nat) (st : Status) (rs : List DayRec) : List DayRec :=
  rs.map (fun r => if r.day ∈ days then { r with status := some st } else r)

/-- The long-sequence pass: mark days 4.. of every long 'AB' sequence as
'Absent'. -/
def markLongRuns (rs : List DayRec) : List DayRec :=
  setStatusForDays (longRunAbsentDays (absRuns rs)) Status.Absent rs

/-- The super-clinic staff quota allocation loop (superclinic.py lines
835-851): one forward pass over the day-ordered records, rewriting each
remaining 'AB' record to 'WO' while `wo_allocated < wo_quota`, else to 'CL'
while `cl_allocated < cl_quota`, else to 'Absent'; `leave_type_used` is set
to 'WO'/'CL'/NULL accordingly. -/
def scAlloc (woQ clQ : Nat) : Nat → Nat → List DayRec → List DayRec
  | _, _, [] => []
  | wo, cl, r :: rs =>
    if r.status = some Status.AB then
      if wo < woQ then
        { r with status := some Status.WO, leaveType := some "WO" } :: scAlloc woQ clQ (wo + 1) cl rs
      else if cl < clQ then
        { r with status := some Status.CL, leaveType := some "CL" } :: scAlloc woQ clQ wo (cl + 1) rs
      else
        { r with status := some Status.Absent, leaveType := none } :: scAlloc woQ clQ wo cl rs
    else r :: scAlloc woQ clQ wo cl rs

/-- The hospital quota allocation loop (hospital.py lines 451-469): the same
forward pass with the quotas hard-coded to 3 WO and 1 CL; the hospital table
has no `leave_type_used` column, so only `status_calculated` is written. -/
def hospAlloc : Nat → Nat → List DayRec → List DayRec
  | _, _, [] => []
  | wo, cl, r :: rs =>
    if r.status = some Status.AB then
      if wo < 3 then
        { r with status := some Status.WO } :: hospAlloc (wo + 1) cl rs
      else if cl < 1 then
        { r with status := some Status.CL } :: hospAlloc wo (cl + 1) rs
      else
        { r with status := some Status.Absent } :: hospAlloc wo cl rs
    else r :: hospAlloc wo cl rs

/-- Model of `apply_leave_policy_for_month` of hospital.py (lines 341-483): on an
empty month it reports "No records found" and returns with no writes;
otherwise classify, mark long sequences, allocate 3 WO + 1 CL. -/
def applyLeavePolicyForMonth (rs : List DayRec) : List DayRec :=
  if rs.isEmpty then rs
  else hospAlloc 0 0 (markLongRuns (classify rs))

/-- The eligibility count of superclinic.py lines 702-708 (and the identical
consultant count, lines 577-583): `COUNT(*) ... WHERE in_time IS NOT NULL OR
out_time IS NOT NULL`.  Note: this is a NULL test, not the classifier's
non-empty-string test. -/
def presentCountSql (rs : List DayRec) : Nat :=
  (rs.filter (fun r => r.inTime.isSome || r.outTime.isSome)).length

/-- The ineligible-branch update of superclinic.py lines 757-762:
`SET status_calculated = 'Absent' WHERE ... in_time IS NULL AND out_time IS
NULL`. -/
def forceAbsentNulls (rs : List DayRec) : List DayRec :=
  rs.map (fun r =>
    if r.inTime = none ∧ r.outTime = none then { r with status := some Status.Absent } else r)

/-- The two quota columns of the `employees_sc` profile row read by the staff
policy (superclinic.py lines 716-721). -/
structure ScProfile where
  initialPaidWo : Nat
  initialPaidCl : Nat
  deriving DecidableEq, Repr

/-- The line `wo_quota, cl_quota = c.fetchone() or (3, 1)` (superclinic.py line 721):
the stored quotas when the profile row exists, the hard-coded defaults when
it does not. -/
def staffWoQuota : Option ScProfile → Nat
  | some p => p.initialPaidWo
  | none => 3

/-- Casual-leave half of `c.fetchone() or (3, 1)`. -/
def staffClQuota : Option ScProfile → Nat
  | some p => p.initialPaidCl
  | none => 1

/-- The staff pipeline of `apply_staff_leave_policy` (superclinic.py lines
700-863), parametrised by the resolved quotas: with no records it returns
having written nothing; otherwise it classifies every day, then either (with
fewer than 9 SQL-present days) force-sets the both-NULL days to 'Absent' and
stops, or runs the long-sequence pass and the quota allocation. -/
def staffPipeline (woQ clQ : Nat) (rs : List DayRec) : List DayRec :=
  if rs.isEmpty then rs
  else if 9 ≤ presentCountSql rs then scAlloc woQ clQ 0 0 (markLongRuns (classify rs))
  else forceAbsentNulls (classify rs)

/-- Model of `apply_staff_leave_policy`, given the profile row (or `none` when the
employee is missing from `employees_sc`); the missing-profile case proceeds
with the defaults instead of raising. -/
def applyStaffLeavePolicy (profile : Option ScProfile) (rs : List DayRec) : List DayRec :=
  staffPipeline (staffWoQuota profile) (staffClQuota profile) rs

/-- The query `SELECT id, day ... WHERE status_calculated = 'AB' ORDER BY day`: the day
numbers of the records still 'AB', in list (= day) order. -/
def abDaysOf (rs : List DayRec) : List Nat :=
  (rs.filter isAB).map (fun r => r.day)

/-- Model of `apply_consultant_leave_policy` (superclinic.py lines 543-677), given the
profile's `cl_calendar_year_quota` (after the NULL-resolution of lines
564-572, which no claim exercises) and `cl_used_this_year`.  Returns the
rewritten month and the stored counter after the run.  The function
classifies every day to 'P'/'AB'; then, only when `cl_quota - cl_used > 0`,
it rewrites the first `remaining` 'AB' days (in day order) to 'CL' (setting
`leave_type_used`), marks the remaining 'AB' days 'Absent', and adds the
number of 'CL' updates to `cl_used_this_year`.  When the remaining balance is
not positive the whole block is skipped and nothing beyond classification is
written. -/
def applyConsultantLeavePolicy (clQuota clUsed : Nat) (rs : List DayRec) :
    List DayRec × Nat :=
  if rs.isEmpty then (rs, clUsed)
  else
    let rs1 := classify rs
    let remaining := clQuota - clUsed
    if 0 < remaining then
      let abDays := abDaysOf rs1
      let clDays := abDays.take remaining
      let aDays := abDays.drop remaining
      let rs2 := rs1.map (fun r =>
        if r.day ∈ clDays then { r with status := some Status.CL, leaveType := some "CL" } else r)
      let rs3 := rs2.map (fun r =>
        if r.day ∈ aDays then { r with status := some Status.Absent } else r)
      (rs3, clUsed + clDays.length)
    else (rs1, clUsed)

/-- The `employees_sc` row fields read by the dispatcher and the two policy
variants.  `clCalendarYearQuota` stands for the resolved annual quota. -/
structure Employee where
  category : String
  initialPaidWo : Nat
  initialPaidCl : Nat
  clCalendarYearQuota : Nat
  clUsedThisYear : Nat
  deriving DecidableEq, Repr

/-- Model of `apply_appropriate_leave_policy` (superclinic.py lines 520-541): category
'Consultant' dispatches to the consultant variant (which may write back the
CL counter); any other category — and a missing employee row — dispatches to
the staff variant. -/
def applyAppropriateLeavePolicy (emp : Option Employee) (rs : List DayRec) :
    List DayRec × Option Employee :=
  match emp with
  | none => (applyStaffLeavePolicy none rs, none)
  | some e =>
    if e.category = "Consultant" then
      let res := applyConsultantLeavePolicy e.clCalendarYearQuota e.clUsedThisYear rs
      (res.1, some { e with clUsedThisYear := res.2 })
    else
      (applyStaffLeavePolicy (some ⟨e.initialPaidWo, e.initialPaidCl⟩) rs, some e)

/-- The fetched month has strictly increasing day numbers: guaranteed by
`UNIQUE(employee_code, month_year, day)` together with `ORDER BY day`. -/
def DaysSorted (rs : List DayRec) : Prop :=
  rs.Chain' (fun a b => a.day < b.day)

instance instDecDaysSorted : (rs : List DayRec) → Decidable (DaysSorted rs)
  | [] => isTrue List.chain'_nil
  | [_] => isTrue (List.chain'_singleton _)
  | a :: b :: t =>
    match Nat.decLt a.day b.day, instDecDaysSorted (b :: t) with
    | isTrue h1, isTrue h2 => isTrue (List.chain'_cons.mpr ⟨h1, h2⟩)
    | isFalse h1, _ => isFalse (fun h => h1 (List.chain'_cons.mp h).1)
    | _, isFalse h2 => isFalse (fun h => h2 (List.chain'_cons.mp h).2)

/-- A convenient constructor for freshly extracted rows (status and leave
type still NULL). -/
def mkDay (d : Nat) (it ot : Option String) : DayRec :=
  ⟨d, it, ot, none, none⟩

/-- Number of 'AB' records among the first `i` records: the rank a record
holds in the month-global allocation order. -/
def abBefore (rs : List DayRec) (i : Nat) : Nat :=
  ((rs.take i).filter isAB).length

/-- Count of records carrying a given computed status. -/
def countStatus (st : Status) (rs : List DayRec) : Nat :=
  rs.countP (fun r => r.status == some st)

/-- The raw data of one record: `(day, in_time, out_time)`. -/
abbrev RawT := Nat × Option String × Option String

/-- The engine-visible data of one record: `(day, in_time, out_time,
status_calculated)`. -/
abbrev CoreT := Nat × Option String × Option String × Option Status

/-- Forget the status of engine-visible data. -/
def rawCore (t : CoreT) : RawT :=
  (t.1, t.2.1, t.2.2.1)

/-- Keep only `(day, status)` of engine-visible data. -/
def dsCore (t : CoreT) : Nat × Option Status :=
  (t.1, t.2.2.2)

/-- The classification pass on the engine-visible level. -/
def classifyCore (t : RawT) : CoreT :=
  (t.1, t.2.1, t.2.2, some (if timeGiven t.2.1 || timeGiven t.2.2 then Status.P else Status.AB))

/-- The `setStatusForDays` update on the engine-visible level. -/
def setCore (days : List Nat) (st : Status) (t : CoreT) : CoreT :=
  if t.1 ∈ days then (t.1, t.2.1, t.2.2.1, some st) else t

/-- The `forceAbsentNulls` update on the engine-visible level. -/
def forceCore (t : CoreT) : CoreT :=
  if t.2.1 = none ∧ t.2.2.1 = none then (t.1, t.2.1, t.2.2.1, some Status.Absent) else t

/-- The allocation loop on the engine-visible level. -/
def scAllocCore (woQ clQ : Nat) : Nat → Nat → List CoreT → List CoreT
  | _, _, [] => []
  | wo, cl, t :: ts =>
    if t.2.2.2 = some Status.AB then
      if wo < woQ then
        (t.1, t.2.1, t.2.2.1, some Status.WO) :: scAllocCore woQ clQ (wo + 1) cl ts
      else if cl < clQ then
        (t.1, t.2.1, t.2.2.1, some Status.CL) :: scAllocCore woQ clQ wo (cl + 1) ts
      else
        (t.1, t.2.1, t.2.2.1, some Status.Absent) :: scAllocCore woQ clQ wo cl ts
    else t :: scAllocCore woQ clQ wo cl ts

/-- The SQL NULL-presence test on raw data. -/
def rawPresent (t : RawT) : Bool :=
  t.2.1.isSome || t.2.2.isSome

/-- The staff pipeline as a function of the raw data alone: the engine never
reads back `leave_type_used`, and overwrites every status before reading any,
so its engine-visible output is determined by `(day, in_time, out_time)`. -/
def staffCore (woQ clQ : Nat) (ts : List RawT) : List CoreT :=
  if ts.isEmpty then []
  else if 9 ≤ ts.countP rawPresent then
    let C := ts.map classifyCore
    scAllocCore woQ clQ 0 0
      (C.map (setCore (longRunAbsentDays (runsGo [] (C.map dsCore))) Status.Absent))
  else (ts.map classifyCore).map forceCore

/-- The hospital pipeline as a function of the raw data alone. -/
def hospRunCore (ts : List RawT) : List CoreT :=
  if ts.isEmpty then []
  else
    let C := ts.map classifyCore
    scAllocCore 3 1 0 0
      (C.map (setCore (longRunAbsentDays (runsGo [] (C.map dsCore))) Status.Absent))

/-- The 'AB' days of the classified month as a function of the raw data. -/
def abDaysRaw (ts : List RawT) : List Nat :=
  (ts.filter (fun t => !(timeGiven t.2.1 || timeGiven t.2.2))).map (fun t => t.1)

example : absRuns (classify
    [mkDay 1 (some "09:00") none, mkDay 2 none none, mkDay 3 none none,
     mkDay 4 none none, mkDay 5 none none, mkDay 6 (some "09:00") none]) =
    [[2, 3, 4, 5]] := by decide

example : (applyLeavePolicyForMonth
    [mkDay 1 (some "09:00") none, mkDay 2 none none, mkDay 3 none none,
     mkDay 4 none none, mkDay 5 none none, mkDay 6 (some "09:00") none]).map dsOf =
    [(1, some Status.P), (2, some Status.WO), (3, some Status.WO),
     (4, some Status.WO), (5, some Status.Absent), (6, some Status.P)] := by decide

example : (applyLeavePolicyForMonth
    [mkDay 1 none none, mkDay 2 none none, mkDay 3 (some "09:00") none,
     mkDay 4 none none]).map dsOf =
    [(1, some Status.WO), (2, some Status.WO), (3, some Status.P),
     (4, some Status.WO)] := by decide

/-! ### Engine-visible images of the passes -/

theorem rawCore_coreOf (r : DayRec) : rawCore (coreOf r) = rawOf r := rfl

theorem dsCore_coreOf (r : DayRec) : dsCore (coreOf r) = dsOf r := rfl

theorem map_ds_from_core (rs : List DayRec) : rs.map dsOf = (rs.map coreOf).map dsCore := by
  rw [List.map_map]
  exact List.map_congr_left (fun r _ => rfl)

theorem map_raw_from_core (rs : List DayRec) : rs.map rawOf = (rs.map coreOf).map rawCore := by
  rw [List.map_map]
  exact List.map_congr_left (fun r _ => rfl)

theorem classify_core_eq (rs : List DayRec) :
    (classify rs).map coreOf = (rs.map rawOf).map classifyCore := by
  simp only [classify, List.map_map]
  exact List.map_congr_left (fun r _ => rfl)

theorem setStatus_core_eq (days : List Nat) (st : Status) (rs : List DayRec) :
    (setStatusForDays days st rs).map coreOf = (rs.map coreOf).map (setCore days st) := by
  simp only [setStatusForDays, List.map_map]
  refine List.map_congr_left (fun r _ => ?_)
  by_cases h : r.day ∈ days
  · simp [setCore, coreOf, h]
  · simp [setCore, coreOf, h]

theorem force_core_eq (rs : List DayRec) :
    (forceAbsentNulls rs).map coreOf = (rs.map coreOf).map forceCore := by
  simp only [forceAbsentNulls, List.map_map]
  refine List.map_congr_left (fun r _ => ?_)
  by_cases h : r.inTime = none ∧ r.outTime = none
  · simp [forceCore, coreOf, h]
  · simp [forceCore, coreOf, h]

theorem scAlloc_core_eq (woQ clQ : Nat) :
    ∀ (wo cl : Nat) (rs : List DayRec),
      (scAlloc woQ clQ wo cl rs).map coreOf = scAllocCore woQ clQ wo cl (rs.map coreOf) := by
  intro wo cl rs
  induction rs generalizing wo cl with
  | nil => rfl
  | cons r rs ih =>
    have hst : (coreOf r).2.2.2 = r.status := rfl
    by_cases hab : r.status = some Status.AB
    · by_cases hwo : wo < woQ
      · simp [scAlloc, scAllocCore, hab, hwo, hst, coreOf, ih]
      · by_cases hcl : cl < clQ
        · simp [scAlloc, scAllocCore, hab, hwo, hcl, hst, coreOf, ih]
        · simp [scAlloc, scAllocCore, hab, hwo, hcl, hst, coreOf, ih]
    · simp [scAlloc, scAllocCore, hab, hst, coreOf, ih]

theorem hospAlloc_core_eq :
    ∀ (wo cl : Nat) (rs : List DayRec),
      (hospAlloc wo cl rs).map coreOf = scAllocCore 3 1 wo cl (rs.map coreOf) := by
  intro wo cl rs
  induction rs generalizing wo cl with
  | nil => rfl
  | cons r rs ih =>
    have hst : (coreOf r).2.2.2 = r.status := rfl
    by_cases hab : r.status = some Status.AB
    · by_cases hwo : wo < 3
      · simp [hospAlloc, scAllocCore, hab, hwo, hst, coreOf, ih]
      · by_cases hcl : cl < 1
        · simp [hospAlloc, scAllocCore, hab, hwo, hcl, hst, coreOf, ih]
        · simp [hospAlloc, scAllocCore, hab, hwo, hcl, hst, coreOf, ih]
    · simp [hospAlloc, scAllocCore, hab, hst, coreOf, ih]

theorem scAllocCore_raw (woQ clQ : Nat) :
    ∀ (wo cl : Nat) (ts : List CoreT),
      (scAllocCore woQ clQ wo cl ts).map rawCore = ts.map rawCore := by
  intro wo cl ts
  induction ts generalizing wo cl with
  | nil => rfl
  | cons t ts ih =>
    by_cases hab : t.2.2.2 = some Status.AB
    · by_cases hwo : wo < woQ
      · simp [scAllocCore, hab, hwo, rawCore, ih]
      · by_cases hcl : cl < clQ
        · simp [scAllocCore, hab, hwo, hcl, rawCore, ih]
        · simp [scAllocCore, hab, hwo, hcl, rawCore, ih]
    · simp [scAllocCore, hab, ih]

theorem setCore_raw (days : List Nat) (st : Status) (ts : List CoreT) :
    (ts.map (setCore days st)).map rawCore = ts.map rawCore := by
  rw [List.map_map]
  refine List.map_congr_left (fun t _ => ?_)
  by_cases h : t.1 ∈ days
  · simp [setCore, rawCore, h]
  · simp [setCore, rawCore, h]

theorem forceCore_raw (ts : List CoreT) :
    (ts.map forceCore).map rawCore = ts.map rawCore := by
  rw [List.map_map]
  refine List.map_congr_left (fun t _ => ?_)
  by_cases h : t.2.1 = none ∧ t.2.2.1 = none
  · simp [forceCore, rawCore, h]
  · simp [forceCore, rawCore, h]

theorem classifyCore_raw (ts : List RawT) :
    (ts.map classifyCore).map rawCore = ts := by
  rw [List.map_map]
  have : ∀ t ∈ ts, (rawCore ∘ classifyCore) t = id t := fun t _ => rfl
  rw [List.map_congr_left this, List.map_id]

theorem isEmpty_map_raw (rs : List DayRec) : (rs.map rawOf).isEmpty = rs.isEmpty := by
  cases rs <;> rfl

theorem presentCountSql_raw (rs : List DayRec) :
    (rs.map rawOf).countP rawPresent = presentCountSql rs := by
  rw [List.countP_map, presentCountSql, List.countP_eq_length_filter]
  rfl

theorem staffPipeline_core_eq (woQ clQ : Nat) (rs : List DayRec) :
    (staffPipeline woQ clQ rs).map coreOf = staffCore woQ clQ (rs.map rawOf) := by
  unfold staffPipeline staffCore
  rw [isEmpty_map_raw, presentCountSql_raw]
  by_cases he : rs.isEmpty
  · rw [List.isEmpty_iff] at he
    subst he
    simp
  · rw [if_neg he, if_neg he]
    by_cases hp : 9 ≤ presentCountSql rs
    · rw [if_pos hp, if_pos hp]
      rw [scAlloc_core_eq, markLongRuns, setStatus_core_eq, classify_core_eq, absRuns,
        map_ds_from_core, classify_core_eq]
    · rw [if_neg hp, if_neg hp]
      rw [force_core_eq, classify_core_eq]

theorem staffCore_raw (woQ clQ : Nat) (ts : List RawT) :
    (staffCore woQ clQ ts).map rawCore = ts := by
  unfold staffCore
  by_cases he : ts.isEmpty
  · rw [List.isEmpty_iff] at he
    subst he
    simp
  · rw [if_neg he]
    by_cases hp : 9 ≤ ts.countP rawPresent
    · rw [if_pos hp]
      rw [scAllocCore_raw, setCore_raw, classifyCore_raw]
    · rw [if_neg hp]
      rw [forceCore_raw, classifyCore_raw]

theorem staffPipeline_raw (woQ clQ : Nat) (rs : List DayRec) :
    (staffPipeline woQ clQ rs).map rawOf = rs.map rawOf := by
  rw [map_raw_from_core, staffPipeline_core_eq, staffCore_raw]

theorem hospRun_core_eq (rs : List DayRec) :
    (applyLeavePolicyForMonth rs).map coreOf = hospRunCore (rs.map rawOf) := by
  unfold applyLeavePolicyForMonth hospRunCore
  rw [isEmpty_map_raw]
  by_cases he : rs.isEmpty
  · rw [List.isEmpty_iff] at he
    subst he
    simp
  · rw [if_neg he, if_neg he]
    rw [hospAlloc_core_eq, markLongRuns, setStatus_core_eq, classify_core_eq, absRuns,
      map_ds_from_core, classify_core_eq]

theorem hospRunCore_raw (ts : List RawT) : (hospRunCore ts).map rawCore = ts := by
  unfold hospRunCore
  by_cases he : ts.isEmpty
  · rw [List.isEmpty_iff] at he
    subst he
    simp
  · rw [if_neg he]
    rw [scAllocCore_raw, setCore_raw, classifyCore_raw]

theorem hospRun_raw (rs : List DayRec) :
    (applyLeavePolicyForMonth rs).map rawOf = rs.map rawOf := by
  rw [map_raw_from_core, hospRun_core_eq, hospRunCore_raw]

/-- C7. Idempotence of the non-consultant policy application: with the
stored `in_time`/`out_time` values unchanged between the calls (the engine
itself never writes them), re-running `apply_staff_leave_policy` (any profile
situation) or the hospital `apply_leave_policy_for_month` on its own output
reproduces exactly the same `(day, computed_status)` for every record: the
second run re-classifies from the raw in/out data and overwrites everything
deterministically, with no accumulation of effects. -/
theorem apply_policy_idempotent (p : Option ScProfile) (rs : List DayRec) :
    (applyStaffLeavePolicy p (applyStaffLeavePolicy p rs)).map dsOf =
      (applyStaffLeavePolicy p rs).map dsOf ∧
    (applyLeavePolicyForMonth (applyLeavePolicyForMonth rs)).map dsOf =
      (applyLeavePolicyForMonth rs).map dsOf := by
  constructor
  · unfold applyStaffLeavePolicy
    rw [map_ds_from_core, map_ds_from_core, staffPipeline_core_eq, staffPipeline_core_eq,
      staffPipeline_raw]
  · rw [map_ds_from_core, map_ds_from_core, hospRun_core_eq, hospRun_core_eq, hospRun_raw]

/-- C9. The staff variant reads `wo_quota`/`cl_quota` from the employee
profile (`initial_paid_wo`, `initial_paid_cl`) when the profile row exists,
and proceeds — as a total function, without raising — with the hard-coded
defaults `wo_quota = 3`, `cl_quota = 1` when `fetchone()` returns no row: a
missing profile behaves exactly like a stored profile `(3, 1)`. -/
theorem staff_quota_defaults :
    (∀ rs, applyStaffLeavePolicy none rs = applyStaffLeavePolicy (some ⟨3, 1⟩) rs) ∧
    (∀ p rs, applyStaffLeavePolicy (some p) rs =
      staffPipeline p.initialPaidWo p.initialPaidCl rs) :=
  ⟨fun _ => rfl, fun _ _ => rfl⟩

/-! ### Run segmentation: structure of the collected 'AB' sequences -/

theorem runsGo_flatten :
    ∀ (ps : List (Nat × Option Status)) (cur : List Nat),
      (runsGo cur ps).flatten =
        cur.reverse ++ (ps.filter (fun p => p.2 == some Status.AB)).map Prod.fst := by
  intro ps
  induction ps with
  | nil =>
    intro cur
    cases cur <;> simp [runsGo]
  | cons p ps ih =>
    intro cur
    by_cases hab : p.2 = some Status.AB
    · cases cur with
      | nil =>
        simp [runsGo, hab, List.filter_cons, ih]
      | cons d ds =>
        by_cases hd : p.1 = d + 1
        · simp [runsGo, hab, hd, List.filter_cons, ih]
        · simp [runsGo, hab, hd, List.filter_cons, ih]
    · cases cur with
      | nil => simp [runsGo, hab, List.filter_cons, ih]
      | cons d ds => simp [runsGo, hab, List.filter_cons, ih]

theorem absRuns_flatten (rs : List DayRec) : (absRuns rs).flatten = abDaysOf rs := by
  rw [absRuns, runsGo_flatten]
  rw [List.filter_map]
  rw [List.map_map]
  simp only [List.reverse_nil, List.nil_append]
  rw [abDaysOf]
  congr 1

theorem sorted_days_pairwise {rs : List DayRec} (hs : DaysSorted rs) :
    (rs.map (fun r => r.day)).Pairwise (· < ·) := by
  rw [← List.chain'_iff_pairwise, List.chain'_map]
  exact hs

theorem abDaysOf_pairwise {rs : List DayRec} (hs : DaysSorted rs) :
    (abDaysOf rs).Pairwise (· < ·) := by
  refine List.Pairwise.sublist ?_ (sorted_days_pairwise hs)
  exact List.Sublist.map _ (List.filter_sublist rs)

theorem abDaysOf_nodup {rs : List DayRec} (hs : DaysSorted rs) : (abDaysOf rs).Nodup :=
  (abDaysOf_pairwise hs).imp Nat.ne_of_lt

theorem days_nodup {rs : List DayRec} (hs : DaysSorted rs) :
    (rs.map (fun r => r.day)).Nodup :=
  (sorted_days_pairwise hs).imp Nat.ne_of_lt

theorem day_inj_aux :
    ∀ (l : List DayRec), (l.map (fun r => r.day)).Nodup →
      ∀ {a b : DayRec}, a ∈ l → b ∈ l → a.day = b.day → a = b := by
  intro l
  induction l with
  | nil => intro _ a b ha; cases ha
  | cons r t ih =>
    intro hnd a b ha hb hab
    rw [List.map_cons, List.nodup_cons] at hnd
    rcases List.mem_cons.mp ha with h1 | h1
    · rcases List.mem_cons.mp hb with h2 | h2
      · rw [h1, h2]
      · exfalso
        apply hnd.1
        rw [← h1, show a.day = b.day from hab]
        exact List.mem_map_of_mem _ h2
    · rcases List.mem_cons.mp hb with h2 | h2
      · exfalso
        apply hnd.1
        rw [← h2, ← hab]
        exact List.mem_map_of_mem _ h1
      · exact ih hnd.2 h1 h2 hab

theorem day_inj {rs : List DayRec} (hs : DaysSorted rs) {a b : DayRec}
    (ha : a ∈ rs) (hb : b ∈ rs) (hab : a.day = b.day) : a = b :=
  day_inj_aux rs (days_nodup hs) ha hb hab

theorem drop3_mem_longRun {runs : List (List Nat)} {R : List Nat} (hR : R ∈ runs)
    {d : Nat} (hd : d ∈ R.drop 3) : d ∈ longRunAbsentDays runs := by
  rw [longRunAbsentDays, List.mem_flatten]
  exact ⟨R.drop 3, List.mem_map_of_mem _ hR, hd⟩

theorem longRun_sub_flatten {runs : List (List Nat)} {d : Nat}
    (hd : d ∈ longRunAbsentDays runs) : d ∈ runs.flatten := by
  rw [longRunAbsentDays, List.mem_flatten] at hd
  obtain ⟨l, hl, hdl⟩ := hd
  rw [List.mem_map] at hl
  obtain ⟨R, hR, rfl⟩ := hl
  exact List.mem_flatten.mpr ⟨R, hR, List.mem_of_mem_drop hdl⟩

theorem take3_not_longRun :
    ∀ (runs : List (List Nat)), runs.flatten.Nodup →
      ∀ {R : List Nat}, R ∈ runs → ∀ {d : Nat}, d ∈ R.take 3 →
        d ∉ longRunAbsentDays runs := by
  intro runs
  induction runs with
  | nil => intro _ R hR; cases hR
  | cons S rest ih =>
    intro hnd R hR d hd hmem
    rw [List.flatten_cons, List.nodup_append] at hnd
    obtain ⟨hS, hrest, hdis⟩ := hnd
    have hsplit : d ∈ S.drop 3 ∨ d ∈ longRunAbsentDays rest := by
      rw [longRunAbsentDays, List.map_cons, List.flatten_cons, List.mem_append] at hmem
      exact hmem.imp id (fun h => h)
    rcases List.mem_cons.mp hR with rfl | hR
    · rcases hsplit with h | h
      · exact List.disjoint_take_drop hS (le_refl 3) hd h
      · exact hdis (List.mem_of_mem_take hd) (longRun_sub_flatten h)
    · rcases hsplit with h | h
      · exact hdis (List.mem_of_mem_drop h)
          (List.mem_flatten.mpr ⟨R, hR, List.mem_of_mem_take hd⟩)
      · exact ih hrest hR hd h

theorem flatten_nodup {rs : List DayRec} (hs : DaysSorted rs) :
    (absRuns rs).flatten.Nodup := by
  rw [absRuns_flatten]
  exact abDaysOf_nodup hs

theorem run_day_status {rs : List DayRec} {R : List Nat} (hR : R ∈ absRuns rs)
    {d : Nat} (hd : d ∈ R) : ∃ r ∈ rs, isAB r = true ∧ r.day = d := by
  have hmem : d ∈ (absRuns rs).flatten := List.mem_flatten.mpr ⟨R, hR, hd⟩
  rw [absRuns_flatten, abDaysOf, List.mem_map] at hmem
  obtain ⟨r, hr, rfl⟩ := hmem
  rw [List.mem_filter] at hr
  exact ⟨r, hr.1, hr.2, rfl⟩

theorem markLongRuns_day_in {rs : List DayRec} {r : DayRec} (hr : r ∈ markLongRuns rs)
    (hd : r.day ∈ longRunAbsentDays (absRuns rs)) : r.status = some Status.Absent := by
  rw [markLongRuns, setStatusForDays, List.mem_map] at hr
  obtain ⟨r₀, h₀, rfl⟩ := hr
  by_cases h : r₀.day ∈ longRunAbsentDays (absRuns rs)
  · simp [h]
  · rw [if_neg h] at hd ⊢
    exact absurd hd h

theorem markLongRuns_keepAB {rs : List DayRec} (hs : DaysSorted rs) {R : List Nat}
    (hR : R ∈ absRuns rs) :
    ∀ r ∈ markLongRuns rs, r.day ∈ R.take 3 → r.status = some Status.AB := by
  intro r hr hd3
  rw [markLongRuns, setStatusForDays, List.mem_map] at hr
  obtain ⟨r₀, h₀, rfl⟩ := hr
  by_cases h : r₀.day ∈ longRunAbsentDays (absRuns rs)
  · exfalso
    have hday : (if r₀.day ∈ longRunAbsentDays (absRuns rs)
        then { r₀ with status := some Status.Absent } else r₀).day = r₀.day := by
      by_cases h2 : r₀.day ∈ longRunAbsentDays (absRuns rs) <;> simp [h2]
    rw [hday] at hd3
    exact take3_not_longRun _ (flatten_nodup hs) hR hd3 h
  · rw [if_neg h] at hd3 ⊢
    obtain ⟨r₁, hr₁, hAB, hday⟩ := run_day_status hR (List.mem_of_mem_take hd3)
    have : r₀ = r₁ := day_inj hs h₀ hr₁ hday.symm
    subst this
    rw [isAB, beq_iff_eq] at hAB
    exact hAB

theorem markLongRuns_dropAbsent {rs : List DayRec} {R : List Nat} (hR : R ∈ absRuns rs) :
    ∀ r ∈ markLongRuns rs, r.day ∈ R.drop 3 → r.status = some Status.Absent := by
  intro r hr hd
  exact markLongRuns_day_in hr (drop3_mem_longRun hR hd)

/-- C2. The long-run rule: for every maximal consecutive-absence run `R`
produced by segmentation, if `R` is longer than 3 days the long-run pass
leaves exactly the first 3 days (earliest by day number) as 'AB' — still
eligible for quota allocation — and sets the days at 1-indexed positions
4..L to 'Absent'; a run of length ≤ 3 has no day marked 'Absent' by this
pass (all its days stay 'AB'). -/
theorem long_run_rule_cap (rs : List DayRec) (hs : DaysSorted rs)
    (R : List Nat) (hR : R ∈ absRuns rs) :
    (3 < R.length →
      (∀ r ∈ markLongRuns rs, r.day ∈ R.take 3 → r.status = some Status.AB) ∧
      (∀ r ∈ markLongRuns rs, r.day ∈ R.drop 3 → r.status = some Status.Absent)) ∧
    (R.length ≤ 3 → ∀ r ∈ markLongRuns rs, r.day ∈ R → r.status = some Status.AB) := by
  refine ⟨fun _ => ⟨markLongRuns_keepAB hs hR, markLongRuns_dropAbsent hR⟩,
    fun hle r hr hd => ?_⟩
  exact markLongRuns_keepAB hs hR r hr (by rwa [List.take_of_length_le hle])

/-- Witness for `long_run_rule_cap` at the spec's Scenario A month: run
`[2,3,4,5]`, days 2-4 stay 'AB', day 5 becomes 'Absent'. -/
theorem long_run_rule_cap_witness :
    (∀ r ∈ markLongRuns (classify
        [mkDay 1 (some "09:00") none, mkDay 2 none none, mkDay 3 none none,
         mkDay 4 none none, mkDay 5 none none, mkDay 6 (some "09:00") none]),
       r.day ∈ ([2, 3, 4, 5] : List Nat).take 3 → r.status = some Status.AB) ∧
    (∀ r ∈ markLongRuns (classify
        [mkDay 1 (some "09:00") none, mkDay 2 none none, mkDay 3 none none,
         mkDay 4 none none, mkDay 5 none none, mkDay 6 (some "09:00") none]),
       r.day ∈ ([2, 3, 4, 5] : List Nat).drop 3 → r.status = some Status.Absent) :=
  (long_run_rule_cap _ (by decide) [2, 3, 4, 5] (by decide)).1 (by decide)

/-! ### The greedy quota allocation pass -/

theorem scAlloc_length (woQ clQ : Nat) :
    ∀ (wo cl : Nat) (rs : List DayRec), (scAlloc woQ clQ wo cl rs).length = rs.length := by
  intro wo cl rs
  induction rs generalizing wo cl with
  | nil => rfl
  | cons r rs ih =>
    by_cases hab : r.status = some Status.AB
    · by_cases hwo : wo < woQ
      · simp [scAlloc, hab, hwo, ih]
      · by_cases hcl : cl < clQ
        · simp [scAlloc, hab, hwo, hcl, ih]
        · simp [scAlloc, hab, hwo, hcl, ih]
    · simp [scAlloc, hab, ih]

theorem abBefore_succ (r : DayRec) (rs : List DayRec) (j : Nat) :
    abBefore (r :: rs) (j + 1) = (if isAB r then 1 else 0) + abBefore rs j := by
  by_cases hr : isAB r <;>
    simp [abBefore, List.take_succ_cons, List.filter_cons, hr, Nat.add_comm]

theorem scAlloc_getElem (woQ clQ : Nat) :
    ∀ (rs : List DayRec) (wo cl i : Nat) (h : i < rs.length)
      (h2 : i < (scAlloc woQ clQ wo cl rs).length),
      rs[i].status = some Status.AB →
      (scAlloc woQ clQ wo cl rs)[i].status =
        some (if abBefore rs i < woQ - wo then Status.WO
              else if abBefore rs i < (woQ - wo) + (clQ - cl) then Status.CL
              else Status.Absent) := by
  intro rs
  induction rs with
  | nil =>
    intro wo cl i h
    simp at h
  | cons r rs ih =>
    intro wo cl i h h2 hab
    cases i with
    | zero =>
      have hab0 : r.status = some Status.AB := by simpa using hab
      have hk : abBefore (r :: rs) 0 = 0 := rfl
      rw [hk]
      by_cases hwo : wo < woQ
      · have hc : 0 < woQ - wo := by omega
        simp [scAlloc, hab0, hwo, hc]
      · by_cases hcl : cl < clQ
        · have h0 : ¬ (0 < woQ - wo) := by omega
          have h1 : 0 < (woQ - wo) + (clQ - cl) := by omega
          simp [scAlloc, hab0, hwo, hcl, h0, h1]
        · have h0 : ¬ (0 < woQ - wo) := by omega
          have h1 : ¬ (0 < (woQ - wo) + (clQ - cl)) := by omega
          simp [scAlloc, hab0, hwo, hcl, h0, h1]
    | succ j =>
      have hlen : j < rs.length := by simpa using h
      have habj : rs[j].status = some Status.AB := by simpa using hab
      rw [abBefore_succ]
      by_cases habr : r.status = some Status.AB
      · have hr1 : (if isAB r then 1 else 0) = 1 := by simp [isAB, habr]
        rw [hr1]
        by_cases hwo : wo < woQ
        · have h2t : j < (scAlloc woQ clQ (wo + 1) cl rs).length := by
            rw [scAlloc_length]; exact hlen
          have hrec := ih (wo + 1) cl j hlen h2t habj
          have e1 : (1 + abBefore rs j < woQ - wo) ↔ (abBefore rs j < woQ - (wo + 1)) := by
            omega
          have e2 : (1 + abBefore rs j < (woQ - wo) + (clQ - cl)) ↔
              (abBefore rs j < (woQ - (wo + 1)) + (clQ - cl)) := by omega
          simp only [scAlloc, if_pos habr, if_pos hwo, List.getElem_cons_succ, e1, e2]
          exact hrec
        · by_cases hcl : cl < clQ
          · have h2t : j < (scAlloc woQ clQ wo (cl + 1) rs).length := by
              rw [scAlloc_length]; exact hlen
            have hrec := ih wo (cl + 1) j hlen h2t habj
            have e1 : (1 + abBefore rs j < woQ - wo) ↔ (abBefore rs j < woQ - wo) := by
              omega
            have e2 : (1 + abBefore rs j < (woQ - wo) + (clQ - cl)) ↔
                (abBefore rs j < (woQ - wo) + (clQ - (cl + 1))) := by omega
            simp only [scAlloc, if_pos habr, if_neg hwo, if_pos hcl, List.getElem_cons_succ,
              e1, e2]
            exact hrec
          · have h2t : j < (scAlloc woQ clQ wo cl rs).length := by
              rw [scAlloc_length]; exact hlen
            have hrec := ih wo cl j hlen h2t habj
            have e1 : (1 + abBefore rs j < woQ - wo) ↔ (abBefore rs j < woQ - wo) := by
              omega
            have e2 : (1 + abBefore rs j < (woQ - wo) + (clQ - cl)) ↔
                (abBefore rs j < (woQ - wo) + (clQ - cl)) := by omega
            simp only [scAlloc, if_pos habr, if_neg hwo, if_neg hcl, List.getElem_cons_succ,
              e1, e2]
            exact hrec
      · have hr0 : (if isAB r then 1 else 0) = 0 := by simp [isAB, habr]
        rw [hr0]
        have h2t : j < (scAlloc woQ clQ wo cl rs).length := by
          rw [scAlloc_length]; exact hlen
        have hrec := ih wo cl j hlen h2t habj
        simp only [scAlloc, if_neg habr, List.getElem_cons_succ, Nat.zero_add]
        exact hrec

theorem hospAlloc_status_eq (wo cl : Nat) (rs : List DayRec) (i : Nat)
    (h3 : i < (hospAlloc wo cl rs).length) (h4 : i < (scAlloc 3 1 wo cl rs).length) :
    (hospAlloc wo cl rs)[i].status = (scAlloc 3 1 wo cl rs)[i].status := by
  have hmap : (hospAlloc wo cl rs).map coreOf = (scAlloc 3 1 wo cl rs).map coreOf :=
    (hospAlloc_core_eq wo cl rs).trans (scAlloc_core_eq 3 1 wo cl rs).symm
  have h7 : i < ((hospAlloc wo cl rs).map coreOf).length := by
    rw [List.length_map]; exact h3
  have h8 : i < ((scAlloc 3 1 wo cl rs).map coreOf).length := by
    rw [List.length_map]; exact h4
  have h6 : ((hospAlloc wo cl rs).map coreOf)[i] = ((scAlloc 3 1 wo cl rs).map coreOf)[i] :=
    List.getElem_of_eq hmap h7
  rw [List.getElem_map, List.getElem_map] at h6
  exact congrArg (fun t => t.2.2.2) h6

/-- C3. Quota allocation is one greedy forward pass over the month-global
day-ordered list: the still-'AB' record of allocation rank `k` (i.e. with `k`
'AB' records before it) becomes 'WO' if `k < wo_quota`, else 'CL' if
`k < wo_quota + cl_quota`, else 'Absent'.  In particular a record becomes
'CL' only when the whole WO quota is already consumed by earlier 'AB' days,
and rank counts the whole month, not a single run, so a later short run draws
from whatever quota remains.  The same holds for the hospital loop with its
hard-coded quotas 3 and 1. -/
theorem quota_alloc_greedy (woQ clQ : Nat) (rs : List DayRec) (i : Nat)
    (h : i < rs.length) (h2 : i < (scAlloc woQ clQ 0 0 rs).length)
    (h3 : i < (hospAlloc 0 0 rs).length)
    (hab : rs[i].status = some Status.AB) :
    (scAlloc woQ clQ 0 0 rs)[i].status =
      some (if abBefore rs i < woQ then Status.WO
            else if abBefore rs i < woQ + clQ then Status.CL
            else Status.Absent) ∧
    (hospAlloc 0 0 rs)[i].status =
      some (if abBefore rs i < 3 then Status.WO
            else if abBefore rs i < 3 + 1 then Status.CL
            else Status.Absent) := by
  constructor
  · have hrec := scAlloc_getElem woQ clQ rs 0 0 i h h2 hab
    simpa using hrec
  · have h4 : i < (scAlloc 3 1 0 0 rs).length := by rw [scAlloc_length]; exact h
    rw [hospAlloc_status_eq 0 0 rs i h3 h4]
    have hrec := scAlloc_getElem 3 1 rs 0 0 i h h4 hab
    simpa using hrec

/-- Witness for `quota_alloc_greedy`: with quotas 1 WO + 1 CL the second 'AB'
day receives 'CL'; in the hospital loop the fifth 'AB' day (rank 4) exceeds
3 WO + 1 CL and becomes 'Absent'. -/
theorem quota_alloc_greedy_witness :
    ((scAlloc 1 1 0 0
        [⟨1, none, none, some Status.AB, none⟩, ⟨2, none, none, some Status.AB, none⟩,
         ⟨3, none, none, some Status.AB, none⟩, ⟨4, none, none, some Status.AB, none⟩,
         ⟨5, none, none, some Status.AB, none⟩]).get ⟨1, by decide⟩).status =
      some Status.CL ∧
    ((hospAlloc 0 0
        [⟨1, none, none, some Status.AB, none⟩, ⟨2, none, none, some Status.AB, none⟩,
         ⟨3, none, none, some Status.AB, none⟩, ⟨4, none, none, some Status.AB, none⟩,
         ⟨5, none, none, some Status.AB, none⟩]).get ⟨4, by decide⟩).status =
      some Status.Absent := by
  constructor
  · have h := (quota_alloc_greedy 1 1
      [⟨1, none, none, some Status.AB, none⟩, ⟨2, none, none, some Status.AB, none⟩,
       ⟨3, none, none, some Status.AB, none⟩, ⟨4, none, none, some Status.AB, none⟩,
       ⟨5, none, none, some Status.AB, none⟩] 1
      (by decide) (by decide) (by decide) (by decide)).1
    rw [List.get_eq_getElem, h]
    decide
  · have h := (quota_alloc_greedy 1 1
      [⟨1, none, none, some Status.AB, none⟩, ⟨2, none, none, some Status.AB, none⟩,
       ⟨3, none, none, some Status.AB, none⟩, ⟨4, none, none, some Status.AB, none⟩,
       ⟨5, none, none, some Status.AB, none⟩] 4
      (by decide) (by decide) (by decide) (by decide)).2
    rw [List.get_eq_getElem, h]
    decide

/-! ### The consultant variant: CL counting and the annual counter -/

theorem classify_status (rs : List DayRec) :
    ∀ r ∈ classify rs, r.status = some Status.P ∨ r.status = some Status.AB := by
  intro r hr
  rw [classify, List.mem_map] at hr
  obtain ⟨r₀, _, rfl⟩ := hr
  by_cases hp : presentRec r₀ <;> simp [classifyDay, hp]

theorem classify_raw_eq (rs : List DayRec) : (classify rs).map rawOf = rs.map rawOf := by
  rw [classify, List.map_map]
  exact List.map_congr_left (fun r _ => rfl)

theorem classify_sorted {rs : List DayRec} (hs : DaysSorted rs) : DaysSorted (classify rs) := by
  rw [DaysSorted, classify, List.chain'_map]
  exact hs

theorem daysSorted_iff_map (rs : List DayRec) :
    DaysSorted rs ↔ (rs.map (fun r => r.day)).Chain' (· < ·) :=
  (List.chain'_map _).symm

theorem map_day_from_raw (rs : List DayRec) :
    rs.map (fun r => r.day) = (rs.map rawOf).map (fun t => t.1) := by
  rw [List.map_map]
  exact List.map_congr_left (fun r _ => rfl)

theorem countP_mem_eq :
    ∀ (l : List Nat), l.Nodup → ∀ (s : List Nat), s.Nodup → (∀ a ∈ s, a ∈ l) →
      l.countP (fun a => decide (a ∈ s)) = s.length := by
  intro l
  induction l with
  | nil =>
    intro _ s _ hsub
    cases s with
    | nil => rfl
    | cons b t => exact absurd (hsub b (List.mem_cons_self b t)) (List.not_mem_nil b)
  | cons a l ih =>
    intro hl s hs hsub
    rw [List.nodup_cons] at hl
    rw [List.countP_cons]
    by_cases hmem : a ∈ s
    · have hne : ∀ x ∈ l, x ≠ a := fun x hx => fun hxa => hl.1 (hxa ▸ hx)
      have hcongr : ∀ x ∈ l, decide (x ∈ s) = decide (x ∈ s.erase a) := by
        intro x hx
        simp [List.mem_erase_of_ne (hne x hx)]
      have hsub2 : ∀ b ∈ s.erase a, b ∈ l := by
        intro b hb
        have hbs : b ∈ s := (List.erase_sublist a s).mem hb
        have hba : b ≠ a := by
          intro h
          exact hs.not_mem_erase (h ▸ hb)
        rcases List.mem_cons.mp (hsub b hbs) with h | h
        · exact absurd h hba
        · exact h
      rw [List.countP_congr (fun x hx => by rw [hcongr x hx])]
      rw [ih hl.2 (s.erase a) (hs.erase a) hsub2]
      have hlen : (s.erase a).length = s.length - 1 := by
        rw [List.length_erase]
        simp [hmem]
      have hpos : 0 < s.length := List.length_pos_of_mem hmem
      have hif : (if decide (a ∈ s) = true then 1 else 0) = 1 := by simp [hmem]
      rw [hif, hlen]
      omega
    · have hsub2 : ∀ b ∈ s, b ∈ l := by
        intro b hb
        rcases List.mem_cons.mp (hsub b hb) with h | h
        · exact absurd (h ▸ hb) hmem
        · exact h
      rw [ih hl.2 s hs hsub2]
      simp [hmem]

theorem map_raw_of_pointwise {f : DayRec → DayRec} (hf : ∀ r, rawOf (f r) = rawOf r)
    (rs : List DayRec) : (rs.map f).map rawOf = rs.map rawOf := by
  rw [List.map_map]
  exact List.map_congr_left (fun r _ => hf r)

theorem consultant_raw (q u : Nat) (rs : List DayRec) :
    (applyConsultantLeavePolicy q u rs).1.map rawOf = rs.map rawOf := by
  unfold applyConsultantLeavePolicy
  by_cases he : rs.isEmpty
  · rw [if_pos he]
  · rw [if_neg he]
    by_cases hrem : 0 < q - u
    · rw [if_pos hrem]
      dsimp only
      have h3 : ∀ r : DayRec, rawOf (if r.day ∈ (abDaysOf (classify rs)).drop (q - u)
          then { r with status := some Status.Absent } else r) = rawOf r := by
        intro r
        by_cases h : r.day ∈ (abDaysOf (classify rs)).drop (q - u) <;> simp [rawOf, h]
      have h2 : ∀ r : DayRec, rawOf (if r.day ∈ (abDaysOf (classify rs)).take (q - u)
          then { r with status := some Status.CL, leaveType := some "CL" } else r) = rawOf r := by
        intro r
        by_cases h : r.day ∈ (abDaysOf (classify rs)).take (q - u) <;> simp [rawOf, h]
      rw [map_raw_of_pointwise h3, map_raw_of_pointwise h2, classify_raw_eq]
    · rw [if_neg hrem]
      exact classify_raw_eq rs


theorem countP_map2 {p : DayRec → Bool} {f2 f3 : DayRec → DayRec} {g : DayRec → Bool}
    {l : List DayRec} (h : ∀ r ∈ l, p (f3 (f2 r)) = g r) :
    ((l.map f2).map f3).countP p = l.countP g := by
  rw [List.map_map, List.countP_map]
  refine List.countP_congr (fun r hr => ?_)
  rw [show (p ∘ f3 ∘ f2) r = g r from h r hr]

theorem abDaysOf_classify_raw (rs : List DayRec) :
    abDaysOf (classify rs) = abDaysRaw (rs.map rawOf) := by
  rw [abDaysOf, abDaysRaw, classify, List.filter_map, List.filter_map, List.map_map,
    List.map_map]
  have h1 : ∀ r ∈ rs, (isAB ∘ classifyDay) r =
      ((fun t : RawT => !(timeGiven t.2.1 || timeGiven t.2.2)) ∘ rawOf) r := by
    intro r _
    have hpr : (timeGiven r.inTime || timeGiven r.outTime) = presentRec r := rfl
    by_cases hp : presentRec r <;>
      simp [Function.comp, isAB, classifyDay, rawOf, hpr, hp]
  rw [List.filter_congr h1]
  exact List.map_congr_left (fun r _ => rfl)

theorem consultant_countCL (q u : Nat) (rs : List DayRec) (hs : DaysSorted rs) :
    countStatus Status.CL (applyConsultantLeavePolicy q u rs).1 =
      min (abDaysOf (classify rs)).length (q - u) := by
  unfold applyConsultantLeavePolicy
  by_cases he : rs.isEmpty
  · rw [if_pos he]
    rw [List.isEmpty_iff] at he
    subst he
    simp [countStatus, abDaysOf, classify]
  · rw [if_neg he]
    by_cases hrem : 0 < q - u
    · rw [if_pos hrem]
      dsimp only
      have hnd : (abDaysOf (classify rs)).Nodup := abDaysOf_nodup (classify_sorted hs)
      have hdisj : ((abDaysOf (classify rs)).take (q - u)).Disjoint
          ((abDaysOf (classify rs)).drop (q - u)) :=
        List.disjoint_take_drop hnd (le_refl _)
      have hpt : ∀ r ∈ classify rs,
          (fun x : DayRec => x.status == some Status.CL)
            ((fun r : DayRec =>
                if r.day ∈ (abDaysOf (classify rs)).drop (q - u)
                then { r with status := some Status.Absent } else r)
              ((fun r : DayRec =>
                if r.day ∈ (abDaysOf (classify rs)).take (q - u)
                then { r with status := some Status.CL, leaveType := some "CL" } else r) r)) =
            decide (r.day ∈ (abDaysOf (classify rs)).take (q - u)) := by
        intro r hr
        by_cases h1 : r.day ∈ (abDaysOf (classify rs)).take (q - u)
        · have h2 : r.day ∉ (abDaysOf (classify rs)).drop (q - u) := fun h2 => hdisj h1 h2
          simp [h1, h2]
        · by_cases h2 : r.day ∈ (abDaysOf (classify rs)).drop (q - u)
          · simp [h1, h2]
          · rcases classify_status rs r hr with h | h <;> simp [h1, h2, h]
      rw [countStatus, countP_map2 hpt]
      have hsub : ∀ d ∈ (abDaysOf (classify rs)).take (q - u),
          d ∈ (classify rs).map (fun r => r.day) := by
        intro d hd
        have hd2 : d ∈ abDaysOf (classify rs) := List.mem_of_mem_take hd
        rw [abDaysOf, List.mem_map] at hd2
        obtain ⟨r, hr, rfl⟩ := hd2
        exact List.mem_map_of_mem _ (List.mem_of_mem_filter hr)
      have hdays : ((classify rs).map (fun r => r.day)).Nodup := days_nodup (classify_sorted hs)
      have htknd : ((abDaysOf (classify rs)).take (q - u)).Nodup :=
        (List.take_sublist _ _).nodup hnd
      have hcnt := countP_mem_eq ((classify rs).map (fun r => r.day)) hdays
        ((abDaysOf (classify rs)).take (q - u)) htknd hsub
      rw [List.countP_map] at hcnt
      have hfin : (classify rs).countP
          (fun r => decide (r.day ∈ (abDaysOf (classify rs)).take (q - u))) =
          ((abDaysOf (classify rs)).take (q - u)).length := hcnt
      rw [hfin, List.length_take, Nat.min_comm]
    · rw [if_neg hrem]
      have h0 : countStatus Status.CL (classify rs) = 0 := by
        rw [countStatus, List.countP_eq_zero]
        intro r hr
        rcases classify_status rs r hr with h | h <;> simp [h]
      have hqu : q - u = 0 := by omega
      rw [show (classify rs, u).1 = classify rs from rfl, h0, hqu]
      simp

theorem consultant_counter (q u : Nat) (rs : List DayRec) :
    (applyConsultantLeavePolicy q u rs).2 =
      if rs.isEmpty then u
      else if 0 < q - u then u + min (q - u) (abDaysOf (classify rs)).length
      else u := by
  unfold applyConsultantLeavePolicy
  by_cases he : rs.isEmpty
  · rw [if_pos he, if_pos he]
  · rw [if_neg he, if_neg he]
    by_cases hrem : 0 < q - u
    · rw [if_pos hrem, if_pos hrem]
      dsimp only
      rw [List.length_take]
    · rw [if_neg hrem, if_neg hrem]

/-- C6. In one consultant invocation the number of days assigned 'CL' is
at most `cl_calendar_year_quota - cl_used_this_year` as read once at the
start, and the stored counter after the run never exceeds the annual quota
(given the data-model invariant that usage has not already overshot it).
Concretely, Scenario D: quota 12, 11 already used, 3 'AB' days → exactly one
day becomes 'CL', the other two become 'Absent', and the counter becomes
12. -/
theorem consultant_annual_cap :
    (∀ (q u : Nat) (rs : List DayRec), u ≤ q → DaysSorted rs →
       countStatus Status.CL (applyConsultantLeavePolicy q u rs).1 ≤ q - u ∧
       (applyConsultantLeavePolicy q u rs).2 ≤ q) ∧
    applyConsultantLeavePolicy 12 11
        [mkDay 1 none none, mkDay 2 none none, mkDay 3 none none] =
      ([⟨1, none, none, some Status.CL, some "CL"⟩,
        ⟨2, none, none, some Status.Absent, none⟩,
        ⟨3, none, none, some Status.Absent, none⟩], 12) := by
  constructor
  · intro q u rs hu hs
    constructor
    · rw [consultant_countCL q u rs hs]
      have h1 : min (abDaysOf (classify rs)).length (q - u) ≤ q - u :=
        Nat.min_le_right _ _
      omega
    · rw [consultant_counter]
      have h1 : min (q - u) (abDaysOf (classify rs)).length ≤ q - u :=
        Nat.min_le_left _ _
      split_ifs <;> omega
  · decide

/-- Witness for `consultant_annual_cap` at Scenario D. -/
theorem consultant_annual_cap_witness :
    countStatus Status.CL
        (applyConsultantLeavePolicy 12 11
          [mkDay 1 none none, mkDay 2 none none, mkDay 3 none none]).1 ≤ 12 - 11 ∧
    (applyConsultantLeavePolicy 12 11
        [mkDay 1 none none, mkDay 2 none none, mkDay 3 none none]).2 ≤ 12 :=
  consultant_annual_cap.1 12 11
    [mkDay 1 none none, mkDay 2 none none, mkDay 3 none none] (by decide) (by decide)

/-- C8. The consultant CL counter is mutated again on re-invocation: each
run adds the number of CL days it allocates to `cl_used_this_year` with no
guard against reapplication.  With at least one absence day and enough
remaining annual balance, the first run stores `u + a` (where `a` is the
number of 'AB'-classified days, all of which receive 'CL'), and re-running
the policy on the resulting month stores `u + 2a` — strictly more:
double-counted usage. -/
theorem consultant_counter_double_count (q u : Nat) (rs : List DayRec)
    (hs : DaysSorted rs)
    (ha : 1 ≤ (abDaysOf (classify rs)).length)
    (hq : u + 2 * (abDaysOf (classify rs)).length ≤ q) :
    (applyConsultantLeavePolicy q u rs).2 = u + (abDaysOf (classify rs)).length ∧
    countStatus Status.CL (applyConsultantLeavePolicy q u rs).1 =
      (abDaysOf (classify rs)).length ∧
    (applyConsultantLeavePolicy q (applyConsultantLeavePolicy q u rs).2
        (applyConsultantLeavePolicy q u rs).1).2 =
      u + 2 * (abDaysOf (classify rs)).length ∧
    (applyConsultantLeavePolicy q u rs).2 <
      (applyConsultantLeavePolicy q (applyConsultantLeavePolicy q u rs).2
        (applyConsultantLeavePolicy q u rs).1).2 := by
  have hne : rs.isEmpty = false := by
    cases hrs : rs.isEmpty
    · rfl
    · rw [List.isEmpty_iff] at hrs
      subst hrs
      simp [abDaysOf, classify] at ha
  have hstable : abDaysOf (classify (applyConsultantLeavePolicy q u rs).1) =
      abDaysOf (classify rs) := by
    rw [abDaysOf_classify_raw, consultant_raw, ← abDaysOf_classify_raw]
  have hlen : (applyConsultantLeavePolicy q u rs).1.length = rs.length := by
    have h := congrArg List.length (consultant_raw q u rs)
    rwa [List.length_map, List.length_map] at h
  have hne2 : (applyConsultantLeavePolicy q u rs).1.isEmpty = false := by
    cases h2 : (applyConsultantLeavePolicy q u rs).1.isEmpty
    · rfl
    · exfalso
      rw [List.isEmpty_iff] at h2
      rw [h2] at hlen
      have hnil : rs = [] := List.length_eq_zero.mp hlen.symm
      rw [hnil] at hne
      simp at hne
  have hc1 : (applyConsultantLeavePolicy q u rs).2 =
      u + (abDaysOf (classify rs)).length := by
    rw [consultant_counter, hne]
    have hrem : 0 < q - u := by omega
    have hmin : min (q - u) (abDaysOf (classify rs)).length =
        (abDaysOf (classify rs)).length := Nat.min_eq_right (by omega)
    simp [hrem, hmin]
  refine ⟨hc1, ?_, ?_, ?_⟩
  · rw [consultant_countCL q u rs hs]
    exact Nat.min_eq_left (by omega)
  · rw [consultant_counter, hne2, hc1, hstable]
    have hrem2 : 0 < q - (u + (abDaysOf (classify rs)).length) := by omega
    have hmin2 : min (q - (u + (abDaysOf (classify rs)).length))
        (abDaysOf (classify rs)).length = (abDaysOf (classify rs)).length :=
      Nat.min_eq_right (by omega)
    simp [hrem2, hmin2]
    omega
  · rw [hc1, consultant_counter, hne2, hstable]
    have hrem2 : 0 < q - (u + (abDaysOf (classify rs)).length) := by omega
    have hmin2 : min (q - (u + (abDaysOf (classify rs)).length))
        (abDaysOf (classify rs)).length = (abDaysOf (classify rs)).length :=
      Nat.min_eq_right (by omega)
    simp [hrem2, hmin2]
    omega

/-- Witness for `consultant_counter_double_count`: quota 12, counter 0, one
absent day — the first run stores 1, the second run stores 2. -/
theorem consultant_counter_double_count_witness :
    (applyConsultantLeavePolicy 12 0 [mkDay 1 none none]).2 <
      (applyConsultantLeavePolicy 12 (applyConsultantLeavePolicy 12 0 [mkDay 1 none none]).2
        (applyConsultantLeavePolicy 12 0 [mkDay 1 none none]).1).2 :=
  (consultant_counter_double_count 12 0 [mkDay 1 none none]
    (by decide) (by decide) (by decide)).2.2.2

/-! ### Frame property: present days stay 'P' through every pass -/

theorem classify_present (rs : List DayRec) :
    ∀ r ∈ classify rs, presentRec r = true → r.status = some Status.P := by
  intro r hr hp
  rw [classify, List.mem_map] at hr
  obtain ⟨r₀, _, rfl⟩ := hr
  have hp0 : presentRec r₀ = true := hp
  simp [classifyDay, hp0]

theorem markLongRuns_keepP {rs : List DayRec} (hs : DaysSorted rs) :
    ∀ r ∈ markLongRuns (classify rs), presentRec r = true → r.status = some Status.P := by
  intro r hr hp
  rw [markLongRuns, setStatusForDays, List.mem_map] at hr
  obtain ⟨r₀, h₀, rfl⟩ := hr
  by_cases h : r₀.day ∈ longRunAbsentDays (absRuns (classify rs))
  · exfalso
    rw [if_pos h] at hp
    have hp0 : presentRec r₀ = true := hp
    have hd : r₀.day ∈ abDaysOf (classify rs) := by
      have hfl := longRun_sub_flatten h
      rwa [absRuns_flatten] at hfl
    rw [abDaysOf, List.mem_map] at hd
    obtain ⟨r₁, hr₁, hday⟩ := hd
    rw [List.mem_filter] at hr₁
    have heq : r₁ = r₀ := day_inj (classify_sorted hs) hr₁.1 h₀ hday
    have hP : r₀.status = some Status.P := classify_present rs r₀ h₀ hp0
    have hAB := hr₁.2
    rw [heq, isAB, beq_iff_eq, hP] at hAB
    exact absurd hAB (by decide)
  · rw [if_neg h] at hp ⊢
    exact classify_present rs r₀ h₀ hp

theorem scAlloc_keepP (woQ clQ : Nat) :
    ∀ (wo cl : Nat) (rs : List DayRec),
      (∀ r ∈ rs, presentRec r = true → r.status = some Status.P) →
      ∀ r ∈ scAlloc woQ clQ wo cl rs, presentRec r = true → r.status = some Status.P := by
  intro wo cl rs
  induction rs generalizing wo cl with
  | nil =>
    intro _ r hr
    cases hr
  | cons x rs ih =>
    intro hinv r hr hp
    have hinvt : ∀ r ∈ rs, presentRec r = true → r.status = some Status.P :=
      fun r h hp2 => hinv r (List.mem_cons_of_mem _ h) hp2
    have hheadP : ∀ (y : DayRec), y.inTime = x.inTime → y.outTime = x.outTime →
        x.status = some Status.AB → presentRec y = true → False := by
      intro y hyi hyo hab hpy
      have hpx : presentRec x = true := by
        rw [presentRec, ← hyi, ← hyo]
        exact hpy
      have hP := hinv x (List.mem_cons_self x rs) hpx
      rw [hP] at hab
      exact absurd hab (by decide)
    by_cases hab : x.status = some Status.AB
    · by_cases hwo : wo < woQ
      · simp only [scAlloc] at hr
        rw [if_pos hab, if_pos hwo] at hr
        rcases List.mem_cons.mp hr with rfl | hr2
        · exact absurd (hheadP _ rfl rfl hab hp) (fun h => h)
        · exact ih (wo + 1) cl hinvt r hr2 hp
      · by_cases hcl : cl < clQ
        · simp only [scAlloc] at hr
          rw [if_pos hab, if_neg hwo, if_pos hcl] at hr
          rcases List.mem_cons.mp hr with rfl | hr2
          · exact absurd (hheadP _ rfl rfl hab hp) (fun h => h)
          · exact ih wo (cl + 1) hinvt r hr2 hp
        · simp only [scAlloc] at hr
          rw [if_pos hab, if_neg hwo, if_neg hcl] at hr
          rcases List.mem_cons.mp hr with rfl | hr2
          · exact absurd (hheadP _ rfl rfl hab hp) (fun h => h)
          · exact ih wo cl hinvt r hr2 hp
    · simp only [scAlloc] at hr
      rw [if_neg hab] at hr
      rcases List.mem_cons.mp hr with rfl | hr2
      · exact hinv r (List.mem_cons_self r rs) hp
      · exact ih wo cl hinvt r hr2 hp

theorem hospAlloc_keepP :
    ∀ (wo cl : Nat) (rs : List DayRec),
      (∀ r ∈ rs, presentRec r = true → r.status = some Status.P) →
      ∀ r ∈ hospAlloc wo cl rs, presentRec r = true → r.status = some Status.P := by
  intro wo cl rs
  induction rs generalizing wo cl with
  | nil =>
    intro _ r hr
    cases hr
  | cons x rs ih =>
    intro hinv r hr hp
    have hinvt : ∀ r ∈ rs, presentRec r = true → r.status = some Status.P :=
      fun r h hp2 => hinv r (List.mem_cons_of_mem _ h) hp2
    have hheadP : ∀ (y : DayRec), y.inTime = x.inTime → y.outTime = x.outTime →
        x.status = some Status.AB → presentRec y = true → False := by
      intro y hyi hyo hab hpy
      have hpx : presentRec x = true := by
        rw [presentRec, ← hyi, ← hyo]
        exact hpy
      have hP := hinv x (List.mem_cons_self x rs) hpx
      rw [hP] at hab
      exact absurd hab (by decide)
    by_cases hab : x.status = some Status.AB
    · by_cases hwo : wo < 3
      · simp only [hospAlloc] at hr
        rw [if_pos hab, if_pos hwo] at hr
        rcases List.mem_cons.mp hr with rfl | hr2
        · exact absurd (hheadP _ rfl rfl hab hp) (fun h => h)
        · exact ih (wo + 1) cl hinvt r hr2 hp
      · by_cases hcl : cl < 1
        · simp only [hospAlloc] at hr
          rw [if_pos hab, if_neg hwo, if_pos hcl] at hr
          rcases List.mem_cons.mp hr with rfl | hr2
          · exact absurd (hheadP _ rfl rfl hab hp) (fun h => h)
          · exact ih wo (cl + 1) hinvt r hr2 hp
        · simp only [hospAlloc] at hr
          rw [if_pos hab, if_neg hwo, if_neg hcl] at hr
          rcases List.mem_cons.mp hr with rfl | hr2
          · exact absurd (hheadP _ rfl rfl hab hp) (fun h => h)
          · exact ih wo cl hinvt r hr2 hp
    · simp only [hospAlloc] at hr
      rw [if_neg hab] at hr
      rcases List.mem_cons.mp hr with rfl | hr2
      · exact hinv r (List.mem_cons_self r rs) hp
      · exact ih wo cl hinvt r hr2 hp

theorem forceAbsent_keepP (rs : List DayRec)
    (hinv : ∀ r ∈ rs, presentRec r = true → r.status = some Status.P) :
    ∀ r ∈ forceAbsentNulls rs, presentRec r = true → r.status = some Status.P := by
  intro r hr hp
  rw [forceAbsentNulls, List.mem_map] at hr
  obtain ⟨r₀, h₀, rfl⟩ := hr
  by_cases h : r₀.inTime = none ∧ r₀.outTime = none
  · exfalso
    rw [if_pos h] at hp
    have hp0 : presentRec r₀ = true := hp
    rw [presentRec, h.1, h.2] at hp0
    simp [timeGiven] at hp0
  · rw [if_neg h] at hp ⊢
    exact hinv r₀ h₀ hp

theorem consultant_keepP (q u : Nat) (rs : List DayRec) (hs : DaysSorted rs) :
    ∀ r ∈ (applyConsultantLeavePolicy q u rs).1,
      presentRec r = true → r.status = some Status.P := by
  unfold applyConsultantLeavePolicy
  by_cases he : rs.isEmpty
  · rw [if_pos he]
    rw [List.isEmpty_iff] at he
    subst he
    intro r hr
    cases hr
  · rw [if_neg he]
    by_cases hrem : 0 < q - u
    · rw [if_pos hrem]
      dsimp only
      intro r hr hp
      rw [List.mem_map] at hr
      obtain ⟨r₁, hr₁, rfl⟩ := hr
      rw [List.mem_map] at hr₁
      obtain ⟨r₀, h₀, rfl⟩ := hr₁
      have hpres : presentRec
          ((fun r : DayRec =>
              if r.day ∈ (abDaysOf (classify rs)).drop (q - u)
              then { r with status := some Status.Absent } else r)
            ((fun r : DayRec =>
              if r.day ∈ (abDaysOf (classify rs)).take (q - u)
              then { r with status := some Status.CL, leaveType := some "CL" } else r) r₀)) =
          presentRec r₀ := by
        by_cases h1 : r₀.day ∈ (abDaysOf (classify rs)).take (q - u) <;>
          by_cases h2 : r₀.day ∈ (abDaysOf (classify rs)).drop (q - u) <;>
            simp [presentRec, h1, h2]
      rw [hpres] at hp
      have habs : r₀.day ∉ abDaysOf (classify rs) := by
        intro hd
        rw [abDaysOf, List.mem_map] at hd
        obtain ⟨r₁, hr₁, hday⟩ := hd
        rw [List.mem_filter] at hr₁
        have heq : r₁ = r₀ := day_inj (classify_sorted hs) hr₁.1 h₀ hday
        have hP : r₀.status = some Status.P := classify_present rs r₀ h₀ hp
        have hAB := hr₁.2
        rw [heq, isAB, beq_iff_eq, hP] at hAB
        exact absurd hAB (by decide)
      have h1 : r₀.day ∉ (abDaysOf (classify rs)).take (q - u) :=
        fun h => habs (List.mem_of_mem_take h)
      have h2 : r₀.day ∉ (abDaysOf (classify rs)).drop (q - u) :=
        fun h => habs (List.mem_of_mem_drop h)
      simp only [if_neg h1, if_neg h2]
      exact classify_present rs r₀ h₀ hp
    · rw [if_neg hrem]
      exact classify_present rs

theorem staff_keepP (p : Option ScProfile) (rs : List DayRec) (hs : DaysSorted rs) :
    ∀ r ∈ applyStaffLeavePolicy p rs, presentRec r = true → r.status = some Status.P := by
  rw [applyStaffLeavePolicy, staffPipeline]
  by_cases he : rs.isEmpty
  · rw [if_pos he]
    rw [List.isEmpty_iff] at he
    subst he
    intro r hr
    cases hr
  · rw [if_neg he]
    by_cases hp9 : 9 ≤ presentCountSql rs
    · rw [if_pos hp9]
      exact scAlloc_keepP _ _ 0 0 _ (markLongRuns_keepP hs)
    · rw [if_neg hp9]
      exact forceAbsent_keepP _ (classify_present rs)

theorem hosp_keepP (rs : List DayRec) (hs : DaysSorted rs) :
    ∀ r ∈ applyLeavePolicyForMonth rs, presentRec r = true → r.status = some Status.P := by
  rw [applyLeavePolicyForMonth]
  by_cases he : rs.isEmpty
  · rw [if_pos he]
    rw [List.isEmpty_iff] at he
    subst he
    intro r hr
    cases hr
  · rw [if_neg he]
    exact hospAlloc_keepP 0 0 _ (markLongRuns_keepP hs)

/-- C10. Frame property of every pass after classification: a day with a
non-NULL, non-empty `in_time` or `out_time` is classified 'P' and every
later pass — long-run marking, quota allocation, the ineligibility
force-absent update, and the consultant CL/Absent updates — modifies only
'AB' days, so such a day still carries status 'P' when the policy
application completes, in all three engines. -/
theorem present_days_frame (rs : List DayRec) (hs : DaysSorted rs) :
    (∀ r ∈ applyLeavePolicyForMonth rs, presentRec r = true → r.status = some Status.P) ∧
    (∀ p : Option ScProfile, ∀ r ∈ applyStaffLeavePolicy p rs,
       presentRec r = true → r.status = some Status.P) ∧
    (∀ q u : Nat, ∀ r ∈ (applyConsultantLeavePolicy q u rs).1,
       presentRec r = true → r.status = some Status.P) :=
  ⟨hosp_keepP rs hs, fun p => staff_keepP p rs hs, fun q u => consultant_keepP q u rs hs⟩

/-- Witness for `present_days_frame` on a two-day month. -/
theorem present_days_frame_witness :
    (∀ r ∈ applyLeavePolicyForMonth [mkDay 1 (some "09:00") none, mkDay 2 none none],
       presentRec r = true → r.status = some Status.P) ∧
    (∀ r ∈ applyStaffLeavePolicy none [mkDay 1 (some "09:00") none, mkDay 2 none none],
       presentRec r = true → r.status = some Status.P) ∧
    (∀ r ∈ (applyConsultantLeavePolicy 12 0
        [mkDay 1 (some "09:00") none, mkDay 2 none none]).1,
       presentRec r = true → r.status = some Status.P) := by
  refine ⟨?_, ?_, ?_⟩
  · exact (present_days_frame _ (by decide)).1
  · exact (present_days_frame _ (by decide)).2.1 none
  · exact (present_days_frame _ (by decide)).2.2 12 0

/-! ### The consultant and staff gate divergences -/

/-- C1 (failing input). Exhaustiveness fails in the consultant variant:
with `cl_calendar_year_quota = 12` and `cl_used_this_year = 12` the remaining
balance is 0, the whole allocation block of
`apply_consultant_leave_policy` (guarded by `if remaining_cl > 0`) is
skipped, and an absence day is left with the transient classification 'AB'
after the invocation completes — contradicting the spec's invariant (and the
hospital report's own "Still_AB ... Should be 0 after policy" expectation). -/
theorem consultant_zero_balance_leaves_pending :
    (applyConsultantLeavePolicy 12 12 [mkDay 1 none none]).1.map (fun r => r.status) =
      [some Status.AB] ∧
    (applyConsultantLeavePolicy 12 12 [mkDay 1 none none]).2 = 12 := by
  decide

/-- C4 (counterexample). The consultant variant applies no long-run rule:
a 5-day consecutive absence run with ample annual balance is allocated 'CL'
on all five days, whereas the claim (long-run rule identical to staff) would
force days 4 and 5 to 'Absent' before allocation. -/
theorem consultant_long_run_not_applied :
    (applyConsultantLeavePolicy 12 0
        [mkDay 1 none none, mkDay 2 none none, mkDay 3 none none,
         mkDay 4 none none, mkDay 5 none none]).1.map (fun r => r.status) =
      [some Status.CL, some Status.CL, some Status.CL, some Status.CL, some Status.CL] := by
  decide

/-- C4 (amended). What the consultant variant actually does: presence
classification is identical to the staff variant (a day with a given time is
'P' and stays 'P'), no day is ever assigned 'WO', and — with no run
segmentation at all — when annual balance remains the first
`quota - used` 'AB' days in ascending day order become 'CL' and every 'AB'
day beyond them becomes 'Absent', regardless of run length. -/
theorem consultant_variant_behavior (q u : Nat) (rs : List DayRec) (hs : DaysSorted rs) :
    (∀ r ∈ (applyConsultantLeavePolicy q u rs).1, r.status ≠ some Status.WO) ∧
    (∀ r ∈ (applyConsultantLeavePolicy q u rs).1,
       presentRec r = true → r.status = some Status.P) ∧
    (u < q →
      (∀ r ∈ (applyConsultantLeavePolicy q u rs).1,
         r.day ∈ (abDaysOf (classify rs)).take (q - u) → r.status = some Status.CL) ∧
      (∀ r ∈ (applyConsultantLeavePolicy q u rs).1,
         r.day ∈ (abDaysOf (classify rs)).drop (q - u) → r.status = some Status.Absent)) := by
  refine ⟨?_, consultant_keepP q u rs hs, ?_⟩
  · unfold applyConsultantLeavePolicy
    by_cases he : rs.isEmpty
    · rw [if_pos he]
      rw [List.isEmpty_iff] at he
      subst he
      intro r hr
      cases hr
    · rw [if_neg he]
      by_cases hrem : 0 < q - u
      · rw [if_pos hrem]
        dsimp only
        intro r hr
        rw [List.mem_map] at hr
        obtain ⟨r₁, hr₁, rfl⟩ := hr
        rw [List.mem_map] at hr₁
        obtain ⟨r₀, h₀, rfl⟩ := hr₁
        rcases classify_status rs r₀ h₀ with h | h <;>
          by_cases h1 : r₀.day ∈ (abDaysOf (classify rs)).take (q - u) <;>
            by_cases h2 : r₀.day ∈ (abDaysOf (classify rs)).drop (q - u) <;>
              simp [h, h1, h2]
      · rw [if_neg hrem]
        intro r hr
        rcases classify_status rs r hr with h | h <;> simp [h]
  · intro hu
    have hrem : 0 < q - u := by omega
    have hnd : (abDaysOf (classify rs)).Nodup := abDaysOf_nodup (classify_sorted hs)
    constructor
    · intro r hr hd
      by_cases he : rs.isEmpty
      · rw [List.isEmpty_iff] at he
        subst he
        simp [applyConsultantLeavePolicy] at hr
      · rw [applyConsultantLeavePolicy, if_neg he, if_pos hrem] at hr
        dsimp only at hr
        rw [List.mem_map] at hr
        obtain ⟨r₁, hr₁, rfl⟩ := hr
        rw [List.mem_map] at hr₁
        obtain ⟨r₀, h₀, rfl⟩ := hr₁
        by_cases h1 : r₀.day ∈ (abDaysOf (classify rs)).take (q - u) <;>
          by_cases h2 : r₀.day ∈ (abDaysOf (classify rs)).drop (q - u)
        · exact absurd h2 (fun h2 => List.disjoint_take_drop hnd (le_refl _) h1 h2)
        · simp [h1, h2]
        · simp [h1, h2] at hd
        · simp [h1, h2] at hd
    · intro r hr hd
      by_cases he : rs.isEmpty
      · rw [List.isEmpty_iff] at he
        subst he
        simp [applyConsultantLeavePolicy] at hr
      · rw [applyConsultantLeavePolicy, if_neg he, if_pos hrem] at hr
        dsimp only at hr
        rw [List.mem_map] at hr
        obtain ⟨r₁, hr₁, rfl⟩ := hr
        rw [List.mem_map] at hr₁
        obtain ⟨r₀, h₀, rfl⟩ := hr₁
        by_cases h1 : r₀.day ∈ (abDaysOf (classify rs)).take (q - u) <;>
          by_cases h2 : r₀.day ∈ (abDaysOf (classify rs)).drop (q - u)
        · simp [h1, h2]
        · simp [h1, h2] at hd
        · simp [h1, h2]
        · simp [h1, h2] at hd

/-- Witness for `consultant_variant_behavior` on a 5-day all-absent month. -/
theorem consultant_variant_behavior_witness :
    (∀ r ∈ (applyConsultantLeavePolicy 12 0
        [mkDay 1 none none, mkDay 2 none none, mkDay 3 none none,
         mkDay 4 none none, mkDay 5 none none]).1, r.status ≠ some Status.WO) ∧
    (∀ r ∈ (applyConsultantLeavePolicy 12 0
        [mkDay 1 none none, mkDay 2 none none, mkDay 3 none none,
         mkDay 4 none none, mkDay 5 none none]).1,
       r.day ∈ (abDaysOf (classify
         [mkDay 1 none none, mkDay 2 none none, mkDay 3 none none,
          mkDay 4 none none, mkDay 5 none none])).take (12 - 0) →
         r.status = some Status.CL) :=
  ⟨(consultant_variant_behavior 12 0 _ (by decide)).1,
   ((consultant_variant_behavior 12 0 _ (by decide)).2.2 (by decide)).1⟩

/-- C5 (counterexample). A stored empty-string `in_time` separates the
two notions of "present": the eligibility gate counts `in_time IS NOT NULL`
(so the day below counts toward the 9-day threshold), while the classifier
and the force-absent update use the non-empty test.  In this month with zero
classifier-Present days (fewer than 9 by any reading), day 1 is classified
'AB' but is NOT force-set to 'Absent' — the force-absent update only touches
rows with both times NULL — so an 'AB' day survives the ineligible branch,
refuting the claim as stated. -/
theorem staff_gate_counterexample :
    (applyStaffLeavePolicy none [mkDay 1 (some "") none, mkDay 2 none none]).map dsOf =
      [(1, some Status.AB), (2, some Status.Absent)] := by
  decide

/-- C5 (amended). The staff gate as implemented: eligibility is
`9 ≤ presentCountSql` (days with a non-NULL `in_time` or `out_time`).  Below
the threshold, classification still runs, every day with both times NULL is
force-set to 'Absent' (a day with a stored empty-string time stays 'AB'),
and the run/quota passes are skipped — no day is granted 'WO' or 'CL'.  At
or above the threshold the full classify → mark-long-runs → allocate
pipeline runs with the resolved quotas. -/
theorem staff_eligibility_gate (p : Option ScProfile) (rs : List DayRec) :
    (presentCountSql rs < 9 →
      (∀ r ∈ applyStaffLeavePolicy p rs,
         r.inTime = none → r.outTime = none → r.status = some Status.Absent) ∧
      (∀ r ∈ applyStaffLeavePolicy p rs,
         r.status ≠ some Status.WO ∧ r.status ≠ some Status.CL)) ∧
    (9 ≤ presentCountSql rs → rs.isEmpty = false →
      applyStaffLeavePolicy p rs =
        scAlloc (staffWoQuota p) (staffClQuota p) 0 0 (markLongRuns (classify rs))) := by
  constructor
  · intro hlt
    have hp9 : ¬ 9 ≤ presentCountSql rs := by omega
    by_cases he : rs.isEmpty
    · rw [List.isEmpty_iff] at he
      subst he
      constructor
      · intro r hr
        rw [show applyStaffLeavePolicy p [] = [] from rfl] at hr
        cases hr
      · intro r hr
        rw [show applyStaffLeavePolicy p [] = [] from rfl] at hr
        cases hr
    · have hres : applyStaffLeavePolicy p rs = forceAbsentNulls (classify rs) := by
        rw [applyStaffLeavePolicy, staffPipeline, if_neg he, if_neg hp9]
      rw [hres]
      constructor
      · intro r hr hin hout
        rw [forceAbsentNulls, List.mem_map] at hr
        obtain ⟨r₀, h₀, rfl⟩ := hr
        by_cases h : r₀.inTime = none ∧ r₀.outTime = none
        · simp [h]
        · exfalso
          rw [if_neg h] at hin hout
          exact h ⟨hin, hout⟩
      · intro r hr
        rw [forceAbsentNulls, List.mem_map] at hr
        obtain ⟨r₀, h₀, rfl⟩ := hr
        rcases classify_status rs r₀ h₀ with h | h <;>
          by_cases hc : r₀.inTime = none ∧ r₀.outTime = none <;> simp [h, hc]
  · intro hge hne
    rw [applyStaffLeavePolicy, staffPipeline,
      if_neg (show ¬ rs.isEmpty = true by rw [hne]; exact Bool.false_ne_true),
      if_pos hge]

/-- Witness for `staff_eligibility_gate`: an under-attendance month with both
times NULL on its absence day, and a 9-present-day month running the full
pipeline. -/
theorem staff_eligibility_gate_witness :
    (∀ r ∈ applyStaffLeavePolicy none [mkDay 1 none none, mkDay 2 none none],
       r.inTime = none → r.outTime = none → r.status = some Status.Absent) ∧
    applyStaffLeavePolicy none
        [mkDay 1 (some "09:00") none, mkDay 2 (some "09:00") none,
         mkDay 3 (some "09:00") none, mkDay 4 (some "09:00") none,
         mkDay 5 (some "09:00") none, mkDay 6 (some "09:00") none,
         mkDay 7 (some "09:00") none, mkDay 8 (some "09:00") none,
         mkDay 9 (some "09:00") none, mkDay 10 none none] =
      scAlloc (staffWoQuota none) (staffClQuota none) 0 0 (markLongRuns (classify
        [mkDay 1 (some "09:00") none, mkDay 2 (some "09:00") none,
         mkDay 3 (some "09:00") none, mkDay 4 (some "09:00") none,
         mkDay 5 (some "09:00") none, mkDay 6 (some "09:00") none,
         mkDay 7 (some "09:00") none, mkDay 8 (some "09:00") none,
         mkDay 9 (some "09:00") none, mkDay 10 none none])) :=
  ⟨((staff_eligibility_gate none _).1 (by decide)).1,
   (staff_eligibility_gate none _).2 (by decide) (by decide)⟩
